import Mathlib

/-!
# Verification of the `dalvik` types module (`src/types/mod.rs`)

Shallow embedding of the data model and parsing code of the `types` module:

* Rust `&str`/`String` values are modelled as `List Char` (Rust's `str::chars`
  iterator is exactly the character sequence).
* Rust `Result<T, error::Parse>` is modelled as `Except Parse T`.
* The `u8` field `dimensions` of `Type::Array` is modelled as a `Nat` kept
  below `2 ^ 8` by taking `% 256` at each arithmetic step, matching the
  wrapping behaviour of `u8` addition (release profile).
* Rust `u32` indices are modelled as `Nat`; the `f32`/`f64` payloads of
  `Value::Float`/`Value::Double` are modelled by their IEEE-754 bit patterns
  as `Nat` (no floating-point arithmetic occurs in this module).
-/

namespace Dalvik

/-- The parse-error enum (`error::Parse`), restricted to the variants this
module produces. -/
inductive Parse where
  | InvalidTypeDescriptor (s : List Char)
  | InvalidShortyDescriptor (s : List Char)
  | InvalidShortyType (c : Char)
  deriving DecidableEq

/-- Abbreviation for the `Char` type, usable inside the `Ty` namespace where
the constructor `Ty.Char` shadows it (likewise `Nat` vs nothing). -/
abbrev Chr := Char

instance {ε α : Type} [DecidableEq ε] [DecidableEq α] : DecidableEq (Except ε α) := fun x y =>
  match x, y with
  | .ok a, .ok b =>
    if h : a = b then .isTrue (h ▸ rfl) else .isFalse (fun hc => h (Except.ok.inj hc))
  | .error a, .error b =>
    if h : a = b then .isTrue (h ▸ rfl) else .isFalse (fun hc => h (Except.error.inj hc))
  | .ok _, .error _ => .isFalse (fun hc => Except.noConfusion hc)
  | .error _, .ok _ => .isFalse (fun hc => Except.noConfusion hc)

/-- Rust `enum Type` (named `Ty` here because `Type` is a Lean sort).
`dimensions` is the `u8` field, kept `< 256` by the parser. -/
inductive Ty where
  | Void
  | Boolean
  | Byte
  | Short
  | Char
  | Int
  | Long
  | Float
  | Double
  | FullyQualifiedName (name : List Char)
  | Array (dimensions : Nat) (array_type : Ty)
  deriving DecidableEq

/-- Whether a `Ty` is the `Array` variant. -/
def Ty.isArr : Ty → Bool
  | .Array _ _ => true
  | _ => false

/-- The non-`[` arms of the `match` in `Type::from_str` (`src/types/mod.rs`
lines 47-57 and the fallback at line 78): the first character `c` is
dispatched on, `rest` is what `chars` still holds.  The `[` arm lives in
`Ty.fromStrArr`; `Ty.fromStr` below glues the two together, and
`fromStrArr_cons_eq_fromStr` proves that using this function for the
recursive `type_str.parse()?` call (whose argument never starts with `[`)
agrees with the source's call to the full `from_str`. -/
def Ty.fromStrNonArr (c : Chr) (rest : List Chr) : Except Parse Ty :=
  match c with
  | 'V' => .ok .Void
  | 'Z' => .ok .Boolean
  | 'B' => .ok .Byte
  | 'S' => .ok .Short
  | 'C' => .ok .Char
  | 'I' => .ok .Int
  | 'J' => .ok .Long
  | 'F' => .ok .Float
  | 'D' => .ok .Double
  | 'L' => .ok (.FullyQualifiedName rest)
  | _ => .error (.InvalidTypeDescriptor (c :: rest))

/-- The `loop` of the `Some('[')` arm of `Type::from_str` (lines 58-77):
`s` is the full original input (used for the error message), `dimensions`
is the `u8` counter (wrapping at 256), and the third argument is what is
left of the character iterator.  On the first non-`[` character `t` the
source rebuilds `type_str = t :: rest` and calls `type_str.parse()?`;
that string never starts with `[`, so the call is `Ty.fromStrNonArr t rest`
(see `fromStrArr_cons_eq_fromStr`). -/
def Ty.fromStrArr (s : List Chr) (dimensions : Nat) : List Chr → Except Parse Ty
  | [] => .error (.InvalidTypeDescriptor s)
  | t :: rest =>
    if t = '[' then Ty.fromStrArr s ((dimensions + 1) % 256) rest
    else
      match Ty.fromStrNonArr t rest with
      | .ok array_type => .ok (.Array dimensions array_type)
      | .error e => .error e

/-- `<Type as FromStr>::from_str` (lines 45-80): empty input fails with
`InvalidTypeDescriptor`, a leading `[` enters the array loop with the
counter at 1, and every other first character goes to the direct arms. -/
def Ty.fromStr (s : List Chr) : Except Parse Ty :=
  match s with
  | [] => .error (.InvalidTypeDescriptor s)
  | c :: rest =>
    if c = '[' then Ty.fromStrArr s 1 rest
    else Ty.fromStrNonArr c rest

/-- `<Type as fmt::Display>::fmt` (lines 83-102), producing the character
list that `write!` emits. -/
def Ty.display : Ty → List Chr
  | .Void => "void".toList
  | .Boolean => "boolean".toList
  | .Byte => "byte".toList
  | .Short => "short".toList
  | .Char => "char".toList
  | .Int => "int".toList
  | .Long => "long".toList
  | .Float => "float".toList
  | .Double => "double".toList
  | .FullyQualifiedName name => name
  | .Array dimensions array_type =>
      Ty.display array_type ++ "[".toList ++ (Nat.repr dimensions).toList ++ "]".toList

/-- Characters accepted as the first character of a type descriptor. -/
def validFirstChar (c : Char) : Bool :=
  c ∈ ['V', 'Z', 'B', 'S', 'C', 'I', 'J', 'F', 'D', 'L', '[']

/-- Number of leading `[` characters of a descriptor string. -/
def leadingBrackets (s : List Char) : Nat :=
  (s.takeWhile (· = '[')).length

/-- Whether a parse result is a success (`Result::is_ok`). -/
def exceptIsOk {ε α : Type} : Except ε α → Bool
  | .ok _ => true
  | .error _ => false

/-- Rust `enum ShortyReturnType` (lines 104-116). -/
inductive ShortyReturnType where
  | Void
  | Boolean
  | Byte
  | Short
  | Char
  | Int
  | Long
  | Float
  | Double
  | Reference
  deriving DecidableEq

/-- `ShortyReturnType::from_char` (lines 118-134). -/
def ShortyReturnType.from_char (c : Chr) : Except Parse ShortyReturnType :=
  match c with
  | 'V' => .ok .Void
  | 'Z' => .ok .Boolean
  | 'B' => .ok .Byte
  | 'S' => .ok .Short
  | 'C' => .ok .Char
  | 'I' => .ok .Int
  | 'J' => .ok .Long
  | 'F' => .ok .Float
  | 'D' => .ok .Double
  | 'L' => .ok .Reference
  | _ => .error (.InvalidShortyType c)

/-- Rust `enum ShortyFieldType` (lines 169-180). -/
inductive ShortyFieldType where
  | Boolean
  | Byte
  | Short
  | Char
  | Int
  | Long
  | Float
  | Double
  | Reference
  deriving DecidableEq

/-- `ShortyFieldType::from_char` (lines 182-197): like the return-type set
but without V. -/
def ShortyFieldType.from_char (c : Chr) : Except Parse ShortyFieldType :=
  match c with
  | 'Z' => .ok .Boolean
  | 'B' => .ok .Byte
  | 'S' => .ok .Short
  | 'C' => .ok .Char
  | 'I' => .ok .Int
  | 'J' => .ok .Long
  | 'F' => .ok .Float
  | 'D' => .ok .Double
  | 'L' => .ok .Reference
  | _ => .error (.InvalidShortyType c)

/-- Rust `struct ShortyDescriptor` (lines 200-204). -/
structure ShortyDescriptor where
  return_type : ShortyReturnType
  field_types : List ShortyFieldType
  deriving DecidableEq

/-- The `for c in chars` loop of `ShortyDescriptor::from_str`
(lines 216-218): each remaining character is converted with
`ShortyFieldType::from_char(c)?`, pushing in order and stopping at the
first error. -/
def parseShortyFieldTypes : List Char → Except Parse (List ShortyFieldType)
  | [] => .ok []
  | c :: rest =>
    match ShortyFieldType.from_char c with
    | .error e => .error e
    | .ok ft =>
      match parseShortyFieldTypes rest with
      | .error e => .error e
      | .ok fts => .ok (ft :: fts)

/-- `<ShortyDescriptor as FromStr>::from_str` (lines 206-224): empty input
fails with `InvalidShortyDescriptor`; otherwise the first character gives
the return type via `ShortyReturnType::from_char(c)?` and the remaining
characters the field types. -/
def ShortyDescriptor.fromStr (s : List Char) : Except Parse ShortyDescriptor :=
  match s with
  | [] => .error (.InvalidShortyDescriptor s)
  | c :: rest =>
    match ShortyReturnType.from_char c with
    | .error e => .error e
    | .ok return_type =>
      match parseShortyFieldTypes rest with
      | .error e => .error e
      | .ok field_types => .ok ⟨return_type, field_types⟩

/-- Characters accepted by `ShortyReturnType::from_char`. -/
def isShortyReturnChar (c : Char) : Bool :=
  c ∈ ['V', 'Z', 'B', 'S', 'C', 'I', 'J', 'F', 'D', 'L']

/-- Characters accepted by `ShortyFieldType::from_char`. -/
def isShortyFieldChar (c : Char) : Bool :=
  c ∈ ['Z', 'B', 'S', 'C', 'I', 'J', 'F', 'D', 'L']

namespace AccessFlags

/-- The `bitflags!`-generated constants (lines 499-541).  The raw bit-set is
modelled as the `u32` bit pattern, a `Nat`. -/
def ACC_PUBLIC : Nat := 0x1

def ACC_PRIVATE : Nat := 0x2

def ACC_PROTECTED : Nat := 0x4

def ACC_STATIC : Nat := 0x8

def ACC_FINAL : Nat := 0x10

def ACC_SYNCHRONIZED : Nat := 0x20

def ACC_VOLATILE : Nat := 0x40

def ACC_BRIDGE : Nat := 0x40

def ACC_TRANSIENT : Nat := 0x80

def ACC_VARARGS : Nat := 0x80

def ACC_NATIVE : Nat := 0x100

def ACC_INTERFACE : Nat := 0x200

def ACC_ABSTRACT : Nat := 0x400

def ACC_STRICT : Nat := 0x800

def ACC_SYNTHETIC : Nat := 0x1000

/-- The `ACC_ANNOTATION` constant, `0x2000` (suffix added to the Lean name
for technical reasons). -/
def ACC_ANNOTATION_BIT : Nat := 0x2000

def ACC_ENUM : Nat := 0x4000

def ACC_CONSTRUCTOR : Nat := 0x10000

def ACC_DECLARED_SYNCHRONIZED : Nat := 0x20000

/-- `bitflags`' `contains`: every bit of `other` is set in `v`. -/
def contains (v other : Nat) : Bool := v &&& other == other

end AccessFlags

/-- Rust `str::trim`: the input without leading and trailing whitespace
(here realized as trimming the right end, then the left end). -/
def trimChars (s : List Char) : List Char :=
  ((s.reverse.dropWhile (fun c => c.isWhitespace)).reverse).dropWhile
    (fun c => c.isWhitespace)

namespace AccessFlags

/-- The `(flag, word)` pairs of the `if self.contains(...) { out.push_str("... ") }`
chain of `<AccessFlags as fmt::Display>::fmt` (lines 543-617), in source
order — note `ACC_ABSTRACT` is tested before `ACC_INTERFACE`, and the
`ACC_ANNOTATION` arm is commented out in the source (lines 607-609) and
therefore absent here.  Each of these words is pushed with a trailing
space; the final `ACC_DECLARED_SYNCHRONIZED` arm (lines 619-621), which
pushes "synchronized" without a trailing space, is handled separately in
`display`. -/
def displayPairs : List (Nat × List Char) :=
  [(ACC_PUBLIC, "public".toList),
   (ACC_PRIVATE, "private".toList),
   (ACC_PROTECTED, "protected".toList),
   (ACC_STATIC, "static".toList),
   (ACC_FINAL, "final".toList),
   (ACC_SYNCHRONIZED, "synchronized".toList),
   (ACC_VOLATILE, "volatile".toList),
   (ACC_BRIDGE, "bridge".toList),
   (ACC_TRANSIENT, "transient".toList),
   (ACC_VARARGS, "varargs".toList),
   (ACC_NATIVE, "native".toList),
   (ACC_ABSTRACT, "abstract".toList),
   (ACC_INTERFACE, "interface".toList),
   (ACC_STRICT, "strict".toList),
   (ACC_SYNTHETIC, "synthetic".toList),
   (ACC_ENUM, "enum".toList),
   (ACC_CONSTRUCTOR, "constructor".toList)]

/-- The `out` string built by the 17 unconditional-space pushes. -/
def rawDisplay (v : Nat) : List Char :=
  displayPairs.foldl
    (fun out p => if contains v p.1 then out ++ p.2 ++ [' '] else out) []

/-- `<AccessFlags as fmt::Display>::fmt` (lines 543-625): the space-pushed
words, then "synchronized" (no trailing space) for
`ACC_DECLARED_SYNCHRONIZED`, then `out.trim()`. -/
def display (v : Nat) : List Char :=
  trimChars
    (if contains v ACC_DECLARED_SYNCHRONIZED
      then rawDisplay v ++ "synchronized".toList
      else rawDisplay v)

/-- Spec-side word sequence of C6: the fixed canonical order including the
final declared-synchronized word (rendered "synchronized"). -/
def claimPairs : List (Nat × List Char) :=
  displayPairs ++ [(ACC_DECLARED_SYNCHRONIZED, "synchronized".toList)]

/-- Spec-side: the words whose flag bits are contained in `v`, in canonical
order. -/
def words (v : Nat) : List (List Char) :=
  (claimPairs.filter (fun p => contains v p.1)).map Prod.snd

end AccessFlags

/-- Spec-side: space-joined word sequence. -/
def joinWords : List (List Char) → List Char
  | [] => []
  | [w] => w
  | w :: ws => w ++ ' ' :: joinWords ws

/-- Each word with a trailing space, concatenated (the shape built by the
display fold). -/
def emitWords (ws : List (List Char)) : List Char :=
  (ws.map (fun w => w ++ [' '])).flatten

/-- A word suitable for space-joining: non-empty and whitespace-free. -/
def goodWord (w : List Char) : Bool :=
  !w.isEmpty && w.all (fun c => !c.isWhitespace)

/-- Rust `enum Visibility` (lines 250-258). -/
inductive Visibility where
  | Build
  | Runtime
  | System

mutual
/-- Rust `enum Value` (lines 261-295): signed integers as `Int`, the
unsigned 16-bit char payload as `Nat`, float payloads by their IEEE-754 bit
patterns as `Nat`, and the five index-carrying variants as `Nat` indices.
The Rust `Type` variant is named `TypeIdx` and the annotation variant
`AnnotationVal` (Lean naming restrictions). -/
inductive Value where
  | Byte (v : Int)
  | Short (v : Int)
  | Char (v : Nat)
  | Int (v : Int)
  | Long (v : Int)
  | Float (bits : Nat)
  | Double (bits : Nat)
  | String (idx : Nat)
  | TypeIdx (idx : Nat)
  | Field (idx : Nat)
  | Method (idx : Nat)
  | Enum (idx : Nat)
  | Array (a : ValueArray)
  | AnnotationVal (a : EncodedAnnotationData)
  | Null
  | Boolean (b : Bool)

/-- Rust `struct Array` (lines 297-301). -/
inductive ValueArray where
  | mk (inner : List Value)

/-- Rust `struct AnnotationElement` (lines 303-308): a name index into the
shared string table and a value. -/
inductive AnnotationElement where
  | mk (name : Nat) (value : Value)

/-- Rust `struct EncodedAnnotation` (lines 325-330), named
`EncodedAnnotationData` here: a type index and the ordered elements. -/
inductive EncodedAnnotationData where
  | mk (type_id : Nat) (elements : List AnnotationElement)
end

/-- Rust `struct Annotation` (lines 344-349), named `AnnotationItem` here:
a visibility plus an encoded annotation record. -/
structure AnnotationItem where
  visibility : Visibility
  annotationData : EncodedAnnotationData

/-- Rust `struct FieldAnnotations` (lines 418-423). -/
structure FieldAnnotations where
  field_id : Nat
  annotations : List AnnotationItem

/-- Rust `struct MethodAnnotations` (lines 445-450). -/
structure MethodAnnotations where
  method_id : Nat
  annotations : List AnnotationItem

/-- Rust `struct ParameterAnnotations` (lines 472-477). -/
structure ParameterAnnotations where
  method_id : Nat
  annotations : List AnnotationItem

/-- Rust `struct AnnotationsDirectory` (lines 366-373); the accessors of
lines 397-416 are the structure projections. -/
structure AnnotationsDirectory where
  class_annotations : List AnnotationItem
  field_annotations : List FieldAnnotations
  method_annotations : List MethodAnnotations
  parameter_annotations : List ParameterAnnotations

/-- `AnnotationsDirectory::new` (lines 375-395): plain aggregation of the
four collections, no validation, always succeeds. -/
def AnnotationsDirectory.new
    (class_annotations : List AnnotationItem)
    (field_annotations : List FieldAnnotations)
    (method_annotations : List MethodAnnotations)
    (parameter_annotations : List ParameterAnnotations) : AnnotationsDirectory :=
  ⟨class_annotations, field_annotations, method_annotations,
    parameter_annotations⟩

/-- On a string that does not start with `[`, the full parser is exactly the
non-array dispatch; hence the use of `fromStrNonArr` at the recursive call
site inside `fromStrArr` coincides with the source's recursive `from_str`. -/
theorem fromStrArr_cons_eq_fromStr (s : List Char) (dims : Nat) (t : Char)
    (rest : List Char) (h : t ≠ '[') :
    Ty.fromStrArr s dims (t :: rest) =
      match Ty.fromStr (t :: rest) with
      | .ok array_type => .ok (.Array dims array_type)
      | .error e => .error e := by
  simp only [Ty.fromStrArr, Ty.fromStr, if_neg h]

theorem fromStrArr_nil (s : List Char) (dims : Nat) :
    Ty.fromStrArr s dims [] = .error (.InvalidTypeDescriptor s) := rfl

theorem fromStrArr_cons_bracket (s : List Char) (dims : Nat) (rest : List Char) :
    Ty.fromStrArr s dims ('[' :: rest) = Ty.fromStrArr s ((dims + 1) % 256) rest := by
  simp [Ty.fromStrArr]

theorem fromStrArr_cons_other (s : List Char) (dims : Nat) {t : Char}
    (rest : List Char) (ht : t ≠ '[') :
    Ty.fromStrArr s dims (t :: rest) =
      match Ty.fromStrNonArr t rest with
      | .ok array_type => .ok (.Array dims array_type)
      | .error e => .error e := by
  simp [Ty.fromStrArr, ht]

theorem fromStr_cons_other {c : Char} (rest : List Char) (hc : c ≠ '[') :
    Ty.fromStr (c :: rest) = Ty.fromStrNonArr c rest := by
  simp [Ty.fromStr, hc]

theorem fromStrNonArr_ok_not_arr {c : Char} {rest : List Char} {ty : Ty}
    (h : Ty.fromStrNonArr c rest = .ok ty) : ty.isArr = false := by
  unfold Ty.fromStrNonArr at h
  split at h <;> cases h <;> rfl

theorem fromStrNonArr_error_shape {c : Char} {rest : List Char} {e : Parse}
    (h : Ty.fromStrNonArr c rest = .error e) :
    e = .InvalidTypeDescriptor (c :: rest) := by
  unfold Ty.fromStrNonArr at h
  split at h <;> first
    | exact Except.noConfusion h
    | (injection h with h; exact h.symm)

theorem fromStrNonArr_of_invalid {c : Char} (rest : List Char)
    (h : validFirstChar c = false) :
    Ty.fromStrNonArr c rest = .error (.InvalidTypeDescriptor (c :: rest)) := by
  unfold Ty.fromStrNonArr
  split
  all_goals first
    | rfl
    | exact absurd h (by decide)

theorem fromStrNonArr_of_valid {c : Char} (rest : List Char)
    (hv : validFirstChar c = true) (hb : c ≠ '[') :
    exceptIsOk (Ty.fromStrNonArr c rest) = true := by
  simp only [validFirstChar, List.mem_cons, List.not_mem_nil, or_false,
    decide_eq_true_eq] at hv
  rcases hv with h | h | h | h | h | h | h | h | h | h | h
  all_goals first
    | (subst h; rfl)
    | exact absurd h hb

/-- A successful run of the array loop always yields an `Array`. -/
theorem fromStrArr_ok_isArr {s : List Char} {dims : Nat} {rest : List Char}
    {ty : Ty} (h : Ty.fromStrArr s dims rest = .ok ty) : ty.isArr = true := by
  induction rest generalizing dims with
  | nil => rw [fromStrArr_nil] at h; exact Except.noConfusion h
  | cons t r ih =>
    by_cases ht : t = '['
    · subst ht
      rw [fromStrArr_cons_bracket] at h
      exact ih h
    · rw [fromStrArr_cons_other s dims r ht] at h
      cases he : Ty.fromStrNonArr t r with
      | ok inner => rw [he] at h; injection h with h; subst h; rfl
      | error e => rw [he] at h; exact Except.noConfusion h

/-- Shape of a successful run of the array loop: the result is an `Array`
whose stored dimension count is the (wrapped) bracket count and whose
element type is not itself an array. -/
theorem fromStrArr_ok_shape {s : List Char} {dims : Nat} {rest : List Char}
    {ty : Ty} (hd : dims < 256) (h : Ty.fromStrArr s dims rest = .ok ty) :
    ∃ inner, inner.isArr = false ∧
      ty = .Array ((dims + (rest.takeWhile (· = '[')).length) % 256) inner := by
  induction rest generalizing dims with
  | nil => rw [fromStrArr_nil] at h; exact Except.noConfusion h
  | cons t r ih =>
    by_cases ht : t = '['
    · subst ht
      rw [fromStrArr_cons_bracket] at h
      obtain ⟨inner, hna, hty⟩ := ih (Nat.mod_lt _ (by omega)) h
      refine ⟨inner, hna, ?_⟩
      rw [hty]
      have htw : (('[' :: r).takeWhile (· = '[')).length
          = (r.takeWhile (· = '[')).length + 1 := by
        simp [List.takeWhile_cons]
      rw [htw, Nat.mod_add_mod]
      congr 1
      omega
    · rw [fromStrArr_cons_other s dims r ht] at h
      cases he : Ty.fromStrNonArr t r with
      | ok inner =>
        rw [he] at h
        injection h with h
        subst h
        refine ⟨inner, fromStrNonArr_ok_not_arr he, ?_⟩
        have htw : ((t :: r).takeWhile (· = '[')).length = 0 := by
          simp [List.takeWhile_cons, ht]
        rw [htw, Nat.add_zero, Nat.mod_eq_of_lt hd]
      | error e => rw [he] at h; exact Except.noConfusion h

/-- Running the array loop over `k` further brackets followed by a non-`[`
character: the dimension counter accumulates `k` (wrapping at 256) and the
remainder is parsed by the non-array dispatch. -/
theorem fromStrArr_replicate (k : Nat) {dims : Nat} (s : List Char) (t : Char)
    (rest : List Char) (ht : t ≠ '[') (hd : dims < 256) :
    Ty.fromStrArr s dims (List.replicate k '[' ++ t :: rest) =
      match Ty.fromStrNonArr t rest with
      | .ok ty => .ok (.Array ((dims + k) % 256) ty)
      | .error e => .error e := by
  induction k generalizing dims with
  | zero =>
    rw [List.replicate_zero, List.nil_append, fromStrArr_cons_other s dims rest ht]
    simp only [Nat.add_zero, Nat.mod_eq_of_lt hd]
  | succ k ih =>
    rw [List.replicate_succ, List.cons_append, fromStrArr_cons_bracket,
      ih (Nat.mod_lt _ (by omega))]
    have harith : ((dims + 1) % 256 + k) % 256 = (dims + (k + 1)) % 256 := by
      rw [Nat.mod_add_mod]
      congr 1
      omega
    simp only [harith]

/-- The error produced by the array loop: the original input when the loop
never reaches a non-`[` character, otherwise whatever the recursive parse of
the remainder reports. -/
theorem fromStrArr_error_shape {s : List Char} {dims : Nat} {rest : List Char}
    {e : Parse} (h : Ty.fromStrArr s dims rest = .error e) :
    e = .InvalidTypeDescriptor
      (if rest.dropWhile (· = '[') = [] then s else rest.dropWhile (· = '[')) := by
  induction rest generalizing dims with
  | nil =>
    rw [fromStrArr_nil] at h
    injection h with h
    simpa using h.symm
  | cons t r ih =>
    by_cases ht : t = '['
    · subst ht
      rw [fromStrArr_cons_bracket] at h
      have hdw : ('[' :: r).dropWhile (· = '[') = r.dropWhile (· = '[') := by
        simp [List.dropWhile_cons]
      rw [hdw]
      exact ih h
    · rw [fromStrArr_cons_other s dims r ht] at h
      have hdw : (t :: r).dropWhile (· = '[') = t :: r := by
        simp [List.dropWhile_cons, ht]
      rw [hdw, if_neg (List.cons_ne_nil t r)]
      cases he : Ty.fromStrNonArr t r with
      | ok inner => rw [he] at h; exact Except.noConfusion h
      | error e' =>
        rw [he] at h
        injection h with h
        subst h
        exact fromStrNonArr_error_shape he

/-- The array loop succeeds exactly when the full parser succeeds on the
remainder after the consumed brackets. -/
theorem fromStrArr_isOk_iff {s : List Char} {dims : Nat} (rest : List Char) :
    exceptIsOk (Ty.fromStrArr s dims rest) =
      exceptIsOk (Ty.fromStr (rest.dropWhile (· = '['))) := by
  induction rest generalizing dims with
  | nil => rfl
  | cons t r ih =>
    by_cases ht : t = '['
    · subst ht
      rw [fromStrArr_cons_bracket]
      have hdw : ('[' :: r).dropWhile (· = '[') = r.dropWhile (· = '[') := by
        simp [List.dropWhile_cons]
      rw [hdw]
      exact ih
    · have hdw : (t :: r).dropWhile (· = '[') = t :: r := by
        simp [List.dropWhile_cons, ht]
      rw [fromStrArr_cons_other s dims r ht, hdw, fromStr_cons_other r ht]
      cases Ty.fromStrNonArr t r <;> rfl

theorem fromStr_nil : Ty.fromStr [] = .error (.InvalidTypeDescriptor []) := rfl

theorem fromStr_cons_bracket (rest : List Char) :
    Ty.fromStr ('[' :: rest) = Ty.fromStrArr ('[' :: rest) 1 rest := rfl

/-- C1 (amended): for every n with 1 ≤ n and every descriptor d that parses
to a non-array type, parsing n leading brackets followed by d succeeds and
yields an Array whose element type is the parse of d and whose dimension
count is n taken modulo 256 — the dimensions field is an 8-bit counter, so
for n ≤ 255 it stores n exactly, and for larger n it wraps. -/
theorem claim_array_prefix_parse (n : Nat) (d : List Char) (ty : Ty)
    (hn : 1 ≤ n) (hok : Ty.fromStr d = .ok ty) (hna : ty.isArr = false) :
    Ty.fromStr (List.replicate n '[' ++ d) = .ok (.Array (n % 256) ty) := by
  cases d with
  | nil => exact Except.noConfusion hok
  | cons t rest =>
    by_cases ht : t = '['
    · subst ht
      rw [fromStr_cons_bracket] at hok
      rw [fromStrArr_ok_isArr hok] at hna
      exact Bool.noConfusion hna
    · rw [fromStr_cons_other rest ht] at hok
      obtain ⟨m, rfl⟩ : ∃ m, n = m + 1 := ⟨n - 1, by omega⟩
      rw [List.replicate_succ, List.cons_append, fromStr_cons_bracket,
        fromStrArr_replicate m _ t rest ht (by omega), hok, Nat.add_comm 1 m]

/-- Witness for C1 at n = 2, d = "I". -/
theorem claim_array_prefix_parse_witness :
    Ty.fromStr (List.replicate 2 '[' ++ ['I']) = .ok (.Array (2 % 256) .Int) :=
  claim_array_prefix_parse 2 ['I'] .Int (by decide) (by decide) (by decide)

set_option maxRecDepth 4000 in
/-- C1 counterexample: with 256 leading brackets followed by "I" the parse
succeeds but the 8-bit dimensions counter has wrapped to 0, so the result is
not the Array with dimensions = 256 required by the claim. -/
theorem claim_array_prefix_parse_cex :
    Ty.fromStr (List.replicate 256 '[' ++ ['I']) = .ok (.Array 0 .Int) ∧
      Ty.fromStr (List.replicate 256 '[' ++ ['I']) ≠ .ok (.Array 256 .Int) := by
  constructor
  · decide
  · decide

/-- C2 counterexample: parsing "Lcom/example/Foo;" keeps the trailing
semicolon in the stored name, so the result is not
FullyQualifiedName "com/example/Foo" as the claim requires. -/
theorem claim_fqn_sigil_strip_cex :
    Ty.fromStr "Lcom/example/Foo;".toList
        = .ok (.FullyQualifiedName "com/example/Foo;".toList) ∧
      Ty.fromStr "Lcom/example/Foo;".toList
        ≠ .ok (.FullyQualifiedName "com/example/Foo".toList) := by
  constructor
  · decide
  · decide

/-- C2 (amended): for every input beginning with the character L, from_str
returns FullyQualifiedName holding the rest of the input after that L with
no further character removed — in particular a trailing semicolon is kept. -/
theorem claim_fqn_tail_after_l (s : List Char) (h : s.head? = some 'L') :
    Ty.fromStr s = .ok (.FullyQualifiedName s.tail) := by
  cases s with
  | nil => exact Option.noConfusion h
  | cons c rest =>
    have hc : c = 'L' := by simpa using h
    subst hc
    rfl

/-- Witness for the amended C2 at the input "La;". -/
theorem claim_fqn_tail_after_l_witness :
    Ty.fromStr "La;".toList = .ok (.FullyQualifiedName "La;".toList.tail) :=
  claim_fqn_tail_after_l "La;".toList rfl

/-- C3: for every input beginning with L, from_str returns
FullyQualifiedName containing exactly the remainder after the L, verbatim;
in particular "Lcom/example/Foo;" parses to
FullyQualifiedName "com/example/Foo;". -/
theorem claim_fqn_verbatim :
    (∀ rest : List Char,
        Ty.fromStr ('L' :: rest) = .ok (.FullyQualifiedName rest)) ∧
      Ty.fromStr "Lcom/example/Foo;".toList
        = .ok (.FullyQualifiedName "com/example/Foo;".toList) :=
  ⟨fun _ => rfl, by decide⟩

/-- C5 (amended): every successfully parsed type satisfies the structural
invariant, with the dimension count taken modulo 256: an Array node's
element type is never itself an Array, its stored dimensions equal the
number of leading brackets of the input modulo 256, and whenever that
number is at most 255 (the 8-bit counter does not wrap) the dimensions are
at least 1 and equal that number exactly. -/
theorem claim_parsed_type_invariant (s : List Char) (ty : Ty)
    (h : Ty.fromStr s = .ok ty) :
    ∀ d t, ty = .Array d t →
      t.isArr = false ∧ d = leadingBrackets s % 256 ∧
        (leadingBrackets s ≤ 255 → 1 ≤ d ∧ d = leadingBrackets s) := by
  cases s with
  | nil => exact Except.noConfusion h
  | cons c rest =>
    by_cases hc : c = '['
    · subst hc
      rw [fromStr_cons_bracket] at h
      obtain ⟨inner, hna, hty⟩ := fromStrArr_ok_shape (by omega) h
      have hlb : leadingBrackets ('[' :: rest)
          = 1 + (rest.takeWhile (· = '[')).length := by
        simp [leadingBrackets, List.takeWhile_cons, Nat.add_comm]
      intro d t heq
      rw [hty] at heq
      injection heq with hd ht
      subst hd
      subst ht
      refine ⟨hna, ?_, ?_⟩
      · rw [hlb]
      · intro hle
        rw [hlb] at hle ⊢
        rw [Nat.mod_eq_of_lt (by omega)]
        omega
    · rw [fromStr_cons_other rest hc] at h
      have hna := fromStrNonArr_ok_not_arr h
      intro d t heq
      rw [heq] at hna
      exact Bool.noConfusion hna

/-- Witness for the amended C5 at the input "[[I". -/
theorem claim_parsed_type_invariant_witness :
    Ty.isArr .Int = false ∧ 2 = leadingBrackets ['[', '[', 'I'] % 256 ∧
      (leadingBrackets ['[', '[', 'I'] ≤ 255 →
        1 ≤ 2 ∧ 2 = leadingBrackets ['[', '[', 'I']) :=
  claim_parsed_type_invariant ['[', '[', 'I'] (.Array 2 .Int) (by decide) 2 .Int rfl

set_option maxRecDepth 4000 in
/-- C5 counterexample: with 256 leading brackets the parse succeeds with a
wrapped dimensions field of 0, violating both dimensions ≥ 1 and equality
with the number of leading brackets. -/
theorem claim_parsed_type_invariant_cex :
    Ty.fromStr (List.replicate 256 '[' ++ ['Z']) = .ok (.Array 0 .Boolean) ∧
      ¬(1 ≤ (0 : Nat) ∧
        (0 : Nat) = leadingBrackets (List.replicate 256 '[' ++ ['Z'])) := by
  constructor
  · decide
  · decide

/-- C8: for each primitive tag, parsing any string beginning with that tag
succeeds with the matching primitive type no matter what follows, and
Display of that type is the documented lowercase keyword. -/
theorem claim_primitive_round_trip (r : List Char) :
    (Ty.fromStr ('V' :: r) = .ok .Void ∧ Ty.display .Void = "void".toList) ∧
    (Ty.fromStr ('Z' :: r) = .ok .Boolean ∧
      Ty.display .Boolean = "boolean".toList) ∧
    (Ty.fromStr ('B' :: r) = .ok .Byte ∧ Ty.display .Byte = "byte".toList) ∧
    (Ty.fromStr ('S' :: r) = .ok .Short ∧ Ty.display .Short = "short".toList) ∧
    (Ty.fromStr ('C' :: r) = .ok .Char ∧ Ty.display .Char = "char".toList) ∧
    (Ty.fromStr ('I' :: r) = .ok .Int ∧ Ty.display .Int = "int".toList) ∧
    (Ty.fromStr ('J' :: r) = .ok .Long ∧ Ty.display .Long = "long".toList) ∧
    (Ty.fromStr ('F' :: r) = .ok .Float ∧ Ty.display .Float = "float".toList) ∧
    (Ty.fromStr ('D' :: r) = .ok .Double ∧
      Ty.display .Double = "double".toList) :=
  ⟨⟨rfl, rfl⟩, ⟨rfl, rfl⟩, ⟨rfl, rfl⟩, ⟨rfl, rfl⟩, ⟨rfl, rfl⟩, ⟨rfl, rfl⟩,
    ⟨rfl, rfl⟩, ⟨rfl, rfl⟩, ⟨rfl, rfl⟩⟩

/-- C10: when from_str fails, the error carries the remainder after the
leading brackets when that remainder is non-empty, and otherwise (empty
input, unrecognized first character — where the remainder is the whole
input — or an input made entirely of brackets) the original input. -/
theorem claim_error_carries_remainder (s : List Char) (e : Parse)
    (h : Ty.fromStr s = .error e) :
    e = .InvalidTypeDescriptor
      (if s.dropWhile (· = '[') = [] then s else s.dropWhile (· = '[')) := by
  cases s with
  | nil =>
    injection h with h
    simpa using h.symm
  | cons c rest =>
    by_cases hc : c = '['
    · subst hc
      rw [fromStr_cons_bracket] at h
      have hdw : ('[' :: rest).dropWhile (· = '[') = rest.dropWhile (· = '[') := by
        simp [List.dropWhile_cons]
      rw [hdw]
      exact fromStrArr_error_shape h
    · rw [fromStr_cons_other rest hc] at h
      have hdw : (c :: rest).dropWhile (· = '[') = c :: rest := by
        simp [List.dropWhile_cons, hc]
      rw [hdw, if_neg (List.cons_ne_nil c rest)]
      exact fromStrNonArr_error_shape h

/-- Witness for C10 at the input "[X": the error carries only "X". -/
theorem claim_error_carries_remainder_witness :
    Parse.InvalidTypeDescriptor ['X'] = .InvalidTypeDescriptor
      (if (['[', 'X'].dropWhile (· = '[')) = [] then ['[', 'X']
        else ['[', 'X'].dropWhile (· = '[')) :=
  claim_error_carries_remainder ['[', 'X'] (.InvalidTypeDescriptor ['X'])
    (by decide)

/-- C4: from_str fails exactly when the input is empty, or its first
character is not a recognized tag, or a bracket prefix is not followed by a
string that itself parses; and every failure reports
InvalidTypeDescriptor (never another error variant). -/
theorem claim_invalid_type_descriptor_iff (s : List Char) :
    (exceptIsOk (Ty.fromStr s) = false ↔
      (s = [] ∨ (∃ c rest, s = c :: rest ∧ validFirstChar c = false) ∨
        (s.head? = some '[' ∧
          exceptIsOk (Ty.fromStr (s.dropWhile (· = '['))) = false))) ∧
    ∀ e, Ty.fromStr s = .error e → ∃ m, e = .InvalidTypeDescriptor m := by
  constructor
  · cases s with
    | nil => simp [Ty.fromStr, exceptIsOk]
    | cons c rest =>
      by_cases hc : c = '['
      · subst hc
        rw [fromStr_cons_bracket, fromStrArr_isOk_iff]
        have hdw : ('[' :: rest).dropWhile (· = '[') = rest.dropWhile (· = '[') := by
          simp [List.dropWhile_cons]
        rw [hdw]
        constructor
        · intro hfail
          exact Or.inr (Or.inr ⟨rfl, hfail⟩)
        · rintro (habs | ⟨c', rest', heq, hv⟩ | ⟨-, hfail⟩)
          · exact absurd habs (List.cons_ne_nil _ _)
          · injection heq with h1 h2
            subst h1
            exact absurd hv (by decide)
          · exact hfail
      · rw [fromStr_cons_other rest hc]
        cases hvc : validFirstChar c with
        | false =>
          rw [fromStrNonArr_of_invalid rest hvc]
          constructor
          · intro _
            exact Or.inr (Or.inl ⟨c, rest, rfl, hvc⟩)
          · intro _
            rfl
        | true =>
          rw [fromStrNonArr_of_valid rest hvc hc]
          constructor
          · intro hff
            exact Bool.noConfusion hff
          · rintro (habs | ⟨c', rest', heq, hv⟩ | ⟨hh, -⟩)
            · exact absurd habs (List.cons_ne_nil _ _)
            · injection heq with h1 h2
              subst h1
              rw [hvc] at hv
              exact Bool.noConfusion hv
            · have : c = '[' := Option.some.inj hh
              exact absurd this hc
  · intro e h
    cases s with
    | nil =>
      injection h with h
      exact ⟨[], h.symm⟩
    | cons c rest =>
      by_cases hc : c = '['
      · subst hc
        rw [fromStr_cons_bracket] at h
        exact ⟨_, fromStrArr_error_shape h⟩
      · rw [fromStr_cons_other rest hc] at h
        exact ⟨_, fromStrNonArr_error_shape h⟩

/-- Witness for C4: the lone bracket "[" fails (its remainder is the empty
string, which itself fails by the empty-input case of the theorem). -/
theorem claim_invalid_type_descriptor_iff_witness :
    exceptIsOk (Ty.fromStr ['[']) = false :=
  (claim_invalid_type_descriptor_iff ['[']).1.mpr
    (Or.inr (Or.inr ⟨rfl,
      (claim_invalid_type_descriptor_iff []).1.mpr (Or.inl rfl)⟩))

theorem shortyReturn_from_char_ok {c : Char} (h : isShortyReturnChar c = true) :
    ∃ rt, ShortyReturnType.from_char c = .ok rt := by
  simp only [isShortyReturnChar, List.mem_cons, List.not_mem_nil, or_false,
    decide_eq_true_eq] at h
  rcases h with h | h | h | h | h | h | h | h | h | h
  all_goals subst h
  all_goals exact ⟨_, rfl⟩

theorem shortyField_from_char_invalid {c : Char}
    (h : isShortyFieldChar c = false) :
    ShortyFieldType.from_char c = .error (.InvalidShortyType c) := by
  unfold ShortyFieldType.from_char
  split
  all_goals first
    | rfl
    | exact absurd h (by decide)

theorem shortyField_from_char_valid {c : Char}
    (h : isShortyFieldChar c = true) :
    ∃ ft, ShortyFieldType.from_char c = .ok ft := by
  simp only [isShortyFieldChar, List.mem_cons, List.not_mem_nil, or_false,
    decide_eq_true_eq] at h
  rcases h with h | h | h | h | h | h | h | h | h
  all_goals subst h
  all_goals exact ⟨_, rfl⟩

/-- The field-type loop fails with `InvalidShortyType` carrying the first
character outside the accepted set. -/
theorem parseShortyFieldTypes_first_invalid {l : List Char} {c : Char}
    (h : l.find? (fun x => !isShortyFieldChar x) = some c) :
    parseShortyFieldTypes l = .error (.InvalidShortyType c) := by
  induction l with
  | nil => exact Option.noConfusion h
  | cons a r ih =>
    rw [List.find?_cons] at h
    cases hf : isShortyFieldChar a with
    | false =>
      rw [hf] at h
      simp only [Bool.not_false] at h
      have hc : a = c := Option.some.inj h
      subst hc
      unfold parseShortyFieldTypes
      rw [shortyField_from_char_invalid hf]
    | true =>
      rw [hf] at h
      simp only [Bool.not_true] at h
      obtain ⟨ft, hft⟩ := shortyField_from_char_valid hf
      unfold parseShortyFieldTypes
      rw [hft, ih h]

/-- C7: parsing the shorty "V" succeeds with return type Void and no
parameters; the empty shorty fails with InvalidShortyDescriptor carrying
the input; and any shorty whose first character is a valid return tag but
whose remaining characters contain one outside the parameter set fails with
InvalidShortyType carrying the first such offending character. -/
theorem claim_shorty_parsing :
    (ShortyDescriptor.fromStr ['V'] = .ok ⟨.Void, []⟩) ∧
    (ShortyDescriptor.fromStr [] = .error (.InvalidShortyDescriptor [])) ∧
    (∀ c1 rest c, isShortyReturnChar c1 = true →
      rest.find? (fun x => !isShortyFieldChar x) = some c →
      ShortyDescriptor.fromStr (c1 :: rest) = .error (.InvalidShortyType c)) := by
  refine ⟨rfl, rfl, ?_⟩
  intro c1 rest c h1 hfind
  obtain ⟨rt, hrt⟩ := shortyReturn_from_char_ok h1
  simp only [ShortyDescriptor.fromStr]
  rw [hrt, parseShortyFieldTypes_first_invalid hfind]

/-- Witness for C7 at the input "VZx": the offending character is x. -/
theorem claim_shorty_parsing_witness :
    ShortyDescriptor.fromStr ['V', 'Z', 'x'] = .error (.InvalidShortyType 'x') :=
  claim_shorty_parsing.2.2 'V' ['Z', 'x'] 'x' (by decide) (by decide)

theorem rawDisplay_foldl (v : Nat) (l : List (Nat × List Char)) (acc : List Char) :
    l.foldl (fun out p => if AccessFlags.contains v p.1 then out ++ p.2 ++ [' '] else out) acc
      = acc ++ emitWords ((l.filter (fun p => AccessFlags.contains v p.1)).map Prod.snd) := by
  induction l generalizing acc with
  | nil => simp [emitWords]
  | cons p l' ih =>
    rw [List.foldl_cons, ih]
    cases hp : AccessFlags.contains v p.1 with
    | true => simp [hp, emitWords, List.filter_cons, List.append_assoc]
    | false => simp [hp, List.filter_cons]

theorem emitWords_append_word (ws : List (List Char)) (w : List Char) :
    emitWords ws ++ w = joinWords (ws ++ [w]) := by
  induction ws with
  | nil => simp [emitWords, joinWords]
  | cons u ws' ih =>
    cases ws' with
    | nil => simp [emitWords, joinWords]
    | cons x xs =>
      rw [show emitWords (u :: x :: xs) = (u ++ [' ']) ++ emitWords (x :: xs) from by
        simp [emitWords]]
      rw [List.append_assoc, ih]
      simp [joinWords]

theorem joinWords_head {w : List Char} {ws : List (List Char)}
    (h : ∀ u ∈ w :: ws, goodWord u = true) :
    ∃ c t, joinWords (w :: ws) = c :: t ∧ c.isWhitespace = false := by
  have hw := h w (List.mem_cons_self w ws)
  cases w with
  | nil => exact absurd hw (by decide)
  | cons c t =>
    have hc : c.isWhitespace = false := by
      simp [goodWord, List.all_cons] at hw
      exact hw.1
    cases ws with
    | nil => exact ⟨c, t, rfl, hc⟩
    | cons x xs =>
      exact ⟨c, t ++ ' ' :: joinWords (x :: xs), by simp [joinWords], hc⟩

theorem joinWords_reverse_head {w : List Char} {ws : List (List Char)}
    (h : ∀ u ∈ w :: ws, goodWord u = true) :
    ∃ c t, (joinWords (w :: ws)).reverse = c :: t ∧ c.isWhitespace = false := by
  induction ws generalizing w with
  | nil =>
    have hw := h w (List.mem_cons_self w [])
    cases hr : w.reverse with
    | nil =>
      rw [List.reverse_eq_nil_iff] at hr
      subst hr
      exact absurd hw (by decide)
    | cons c t =>
      have hcmem : c ∈ w := by
        rw [← List.mem_reverse, hr]
        exact List.mem_cons_self c t
      have hc : c.isWhitespace = false := by
        simp [goodWord] at hw
        exact hw.2 c hcmem
      exact ⟨c, t, by simp [joinWords, hr], hc⟩
  | cons x xs ih =>
    obtain ⟨c, t, hrev, hc⟩ := ih (fun u hu => h u (List.mem_cons_of_mem w hu))
    refine ⟨c, t ++ [' '] ++ w.reverse, ?_, hc⟩
    rw [show joinWords (w :: x :: xs) = w ++ ' ' :: joinWords (x :: xs) from by
      simp [joinWords]]
    rw [List.reverse_append, List.reverse_cons, hrev]
    simp

theorem trimChars_joinWords {ws : List (List Char)}
    (h : ∀ u ∈ ws, goodWord u = true) :
    trimChars (joinWords ws) = joinWords ws := by
  cases ws with
  | nil => rfl
  | cons w ws' =>
    obtain ⟨c0, t0, hj, hc0⟩ := joinWords_head h
    obtain ⟨c1, t1, hrev, hc1⟩ := joinWords_reverse_head h
    unfold trimChars
    rw [hrev]
    rw [show List.dropWhile (fun c => c.isWhitespace) (c1 :: t1) = c1 :: t1 from by
      simp [List.dropWhile_cons, hc1]]
    rw [← hrev, List.reverse_reverse, hj]
    rw [show List.dropWhile (fun c => c.isWhitespace) (c0 :: t0) = c0 :: t0 from by
      simp [List.dropWhile_cons, hc0]]

theorem trimChars_append_space (s : List Char) :
    trimChars (s ++ [' ']) = trimChars s := by
  unfold trimChars
  have hsp : (' ').isWhitespace = true := by decide
  simp [List.reverse_append, List.dropWhile_cons, hsp]

theorem trimChars_emit_append {ws : List (List Char)} {w : List Char}
    (hws : ∀ u ∈ ws, goodWord u = true) (hw : goodWord w = true) :
    trimChars (emitWords ws ++ w) = joinWords (ws ++ [w]) := by
  rw [emitWords_append_word]
  apply trimChars_joinWords
  intro u hu
  rcases List.mem_append.mp hu with hu | hu
  · exact hws u hu
  · rw [List.mem_singleton.mp hu]
    exact hw

theorem trimChars_emit {ws : List (List Char)}
    (hws : ∀ u ∈ ws, goodWord u = true) :
    trimChars (emitWords ws) = joinWords ws := by
  induction ws using List.reverseRecOn with
  | nil => rfl
  | append_singleton init u _ =>
    rw [show emitWords (init ++ [u]) = (emitWords init ++ u) ++ [' '] from by
      simp [emitWords, List.append_assoc]]
    rw [trimChars_append_space]
    exact trimChars_emit_append
      (fun x hx => hws x (List.mem_append_left _ hx))
      (hws u (List.mem_append_right _ (List.mem_singleton_self u)))

theorem display_eq_joinWords (v : Nat) :
    AccessFlags.display v = joinWords (AccessFlags.words v) := by
  have hgood17 : ∀ u ∈ (AccessFlags.displayPairs.filter
      (fun p => AccessFlags.contains v p.1)).map Prod.snd, goodWord u = true := by
    have hall : ∀ w ∈ AccessFlags.displayPairs.map Prod.snd, goodWord w = true := by
      decide
    intro u hu
    apply hall
    simp only [List.mem_map] at hu ⊢
    obtain ⟨p, hp, rfl⟩ := hu
    exact ⟨p, List.mem_of_mem_filter hp, rfl⟩
  have hwords : AccessFlags.words v =
      (AccessFlags.displayPairs.filter (fun p => AccessFlags.contains v p.1)).map Prod.snd
        ++ (if AccessFlags.contains v AccessFlags.ACC_DECLARED_SYNCHRONIZED
            then ["synchronized".toList] else []) := by
    unfold AccessFlags.words AccessFlags.claimPairs
    rw [List.filter_append, List.map_append]
    congr 1
    cases hd : AccessFlags.contains v AccessFlags.ACC_DECLARED_SYNCHRONIZED with
    | true => simp [List.filter_cons, hd]
    | false => simp [List.filter_cons, hd]
  unfold AccessFlags.display AccessFlags.rawDisplay
  rw [rawDisplay_foldl, List.nil_append, hwords]
  by_cases hd : AccessFlags.contains v AccessFlags.ACC_DECLARED_SYNCHRONIZED = true
  · rw [if_pos hd, if_pos hd]
    exact trimChars_emit_append hgood17 (by decide)
  · rw [if_neg hd, if_neg hd, List.append_nil]
    exact trimChars_emit hgood17

theorem words_mem_claimPairs (v : Nat) {w : List Char}
    (h : w ∈ AccessFlags.words v) : w ∈ AccessFlags.claimPairs.map Prod.snd := by
  simp only [AccessFlags.words, List.mem_map] at h ⊢
  obtain ⟨p, hp, rfl⟩ := h
  exact ⟨p, List.mem_of_mem_filter hp, rfl⟩

/-- C6: Display of an access-flag value is exactly the space-join, in the
fixed source order (with abstract before interface, shared-bit words both
rendered, and declared-synchronized rendered "synchronized"), of the words
whose flag bits are contained in the value, surrounding whitespace trimmed;
the word "annotation" never occurs; and the three documented examples
render as stated. -/
theorem claim_access_flags_display :
    (∀ v : Nat, AccessFlags.display v = joinWords (AccessFlags.words v)) ∧
    (∀ v : Nat, (AccessFlags.words v).count "annotation".toList = 0) ∧
    AccessFlags.display AccessFlags.ACC_PUBLIC = "public".toList ∧
    AccessFlags.display
        (AccessFlags.ACC_PUBLIC ||| AccessFlags.ACC_DECLARED_SYNCHRONIZED)
      = "public synchronized".toList ∧
    AccessFlags.display
        (AccessFlags.ACC_PROTECTED ||| AccessFlags.ACC_ABSTRACT |||
          AccessFlags.ACC_STATIC)
      = "protected static abstract".toList := by
  refine ⟨display_eq_joinWords, ?_, by decide, by decide, by decide⟩
  intro v
  rw [List.count_eq_zero]
  intro hmem
  exact absurd (words_mem_claimPairs v hmem) (by decide)

/-- C9: the constructor is total (never fails) and every accessor returns
exactly the collection passed to it, element for element, with no
re-sorting, de-duplication or other modification. -/
theorem claim_annotations_directory_identity
    (ca : List AnnotationItem) (fa : List FieldAnnotations)
    (ma : List MethodAnnotations) (pa : List ParameterAnnotations) :
    (AnnotationsDirectory.new ca fa ma pa).class_annotations = ca ∧
    (AnnotationsDirectory.new ca fa ma pa).field_annotations = fa ∧
    (AnnotationsDirectory.new ca fa ma pa).method_annotations = ma ∧
    (AnnotationsDirectory.new ca fa ma pa).parameter_annotations = pa :=
  ⟨rfl, rfl, rfl, rfl⟩

end Dalvik
